import Mathlib

/-!
Verification of the envcat core pipeline: NUL-splitting of a raw byte buffer,
decoding records at the first `=`, pattern filtering, and styled output.
Bytes are modelled as `Nat`, byte slices as `List Nat`.
-/

/-- First index of `needle` in the list, as in `memchr::memchr`. -/
def memchr (needle : Nat) : List Nat → Option Nat
  | [] => none
  | b :: rest => if b = needle then some 0 else (memchr needle rest).map (· + 1)

/-- One step of the `NullSplit` iterator (`NullSplit::next`): on a non-empty
remaining slice, yield the bytes before the first NUL (or the whole slice if
none) together with the new remaining slice. -/
def nullSplitNext (s : List Nat) : Option (List Nat × List Nat) :=
  if s.isEmpty then
    none
  else
    match memchr 0 s with
    | some pos => some (s.take pos, s.drop (pos + 1))
    | none => some (s, [])

theorem nullSplitNext_some_length {s chunk s' : List Nat}
    (h : nullSplitNext s = some (chunk, s')) : s'.length < s.length := by
  unfold nullSplitNext at h
  by_cases hs : s.isEmpty
  · simp [hs] at h
  · have hlen : 0 < s.length := by
      cases s with
      | nil => simp at hs
      | cons a t => simp
    cases hm : memchr 0 s with
    | some pos =>
      rw [if_neg hs, hm] at h
      obtain ⟨-, h2⟩ := Prod.mk.injEq .. ▸ Option.some.injEq .. ▸ h
      subst h2
      simp only [List.length_drop]
      omega
    | none =>
      rw [if_neg hs, hm] at h
      obtain ⟨-, h2⟩ := Prod.mk.injEq .. ▸ Option.some.injEq .. ▸ h
      subst h2
      simpa using hlen

/-- All chunks yielded by the `NullSplit` iterator, in order. -/
def nullSplit (buf : List Nat) : List (List Nat) :=
  match h : nullSplitNext buf with
  | none => []
  | some (chunk, rest) => chunk :: nullSplit rest
termination_by buf.length
decreasing_by exact nullSplitNext_some_length h

theorem nullSplit_of_next_none {buf : List Nat} (h : nullSplitNext buf = none) :
    nullSplit buf = [] := by
  rw [nullSplit, h]

theorem nullSplit_of_next_some {buf chunk rest : List Nat}
    (h : nullSplitNext buf = some (chunk, rest)) :
    nullSplit buf = chunk :: nullSplit rest := by
  rw [nullSplit, h]

theorem nullSplit_nil : nullSplit [] = [] :=
  nullSplit_of_next_none rfl

theorem nullSplitNext_cons_zero (rest : List Nat) :
    nullSplitNext (0 :: rest) = some ([], rest) := by
  simp [nullSplitNext, memchr]

theorem nullSplit_cons_zero (rest : List Nat) :
    nullSplit (0 :: rest) = [] :: nullSplit rest :=
  nullSplit_of_next_some (nullSplitNext_cons_zero rest)

/-- Structural twin of `nullSplit`, used for induction and evaluation. -/
def chunksR : List Nat → List (List Nat)
  | [] => []
  | b :: rest =>
    if b = 0 then
      [] :: chunksR rest
    else
      match chunksR rest with
      | [] => [[b]]
      | r :: rs => (b :: r) :: rs

theorem nullSplit_cons_of_ne (b : Nat) (rest : List Nat) (hb : b ≠ 0) :
    nullSplit (b :: rest) =
      match nullSplit rest with
      | [] => [[b]]
      | r :: rs => (b :: r) :: rs := by
  cases hm : memchr 0 rest with
  | none =>
    have hnext : nullSplitNext (b :: rest) = some (b :: rest, []) := by
      simp [nullSplitNext, memchr, hb, hm]
    rw [nullSplit_of_next_some hnext, nullSplit_nil]
    cases rest with
    | nil => simp [nullSplit_nil]
    | cons c t =>
      have hnext' : nullSplitNext (c :: t) = some (c :: t, []) := by
        simp [nullSplitNext, hm]
      rw [nullSplit_of_next_some hnext', nullSplit_nil]
  | some p =>
    have hrest : rest ≠ [] := by
      intro h
      subst h
      simp [memchr] at hm
    have hnext : nullSplitNext (b :: rest) =
        some (b :: rest.take p, rest.drop (p + 1)) := by
      simp [nullSplitNext, memchr, hb, hm]
    have hnext' : nullSplitNext rest = some (rest.take p, rest.drop (p + 1)) := by
      simp [nullSplitNext, hm, hrest]
    rw [nullSplit_of_next_some hnext, nullSplit_of_next_some hnext']

theorem nullSplit_eq_chunksR : ∀ buf : List Nat, nullSplit buf = chunksR buf := by
  intro buf
  induction buf with
  | nil => rw [nullSplit_nil, chunksR]
  | cons b rest ih =>
    by_cases hb : b = 0
    · subst hb
      rw [nullSplit_cons_zero, chunksR, if_pos rfl, ih]
    · rw [nullSplit_cons_of_ne b rest hb, ih, chunksR, if_neg hb]

theorem chunksR_ne_nil {buf : List Nat} (h : buf ≠ []) : chunksR buf ≠ [] := by
  cases buf with
  | nil => exact absurd rfl h
  | cons b rest =>
    rw [chunksR]
    by_cases hb : b = 0
    · simp [hb]
    · rw [if_neg hb]
      cases chunksR rest <;> simp

/-- Records per the spec's words: the buffer split at every NUL byte, with
buffer start and end also acting as delimiters, so `k` NUL bytes give `k + 1`
records. Used as the reference point for the splitter and pipeline claims. -/
def specSplit : List Nat → List (List Nat)
  | [] => [[]]
  | b :: rest =>
    if b = 0 then
      [] :: specSplit rest
    else
      match specSplit rest with
      | [] => [[b]]
      | r :: rs => (b :: r) :: rs

/-- The one record `specSplit` has and `nullSplit` lacks: a final empty record
when the buffer is empty or ends in NUL. -/
def tailPad (buf : List Nat) : List (List Nat) :=
  if buf.getLast? = some 0 ∨ buf = [] then [[]] else []

theorem tailPad_cons (b : Nat) {rest : List Nat} (h : rest ≠ []) :
    tailPad (b :: rest) = tailPad rest := by
  cases rest with
  | nil => exact absurd rfl h
  | cons c t => simp [tailPad, List.getLast?_cons_cons]

theorem specSplit_eq (buf : List Nat) : specSplit buf = chunksR buf ++ tailPad buf := by
  induction buf with
  | nil => simp [specSplit, chunksR, tailPad]
  | cons b rest ih =>
    by_cases hb : b = 0
    · subst hb
      rw [specSplit, if_pos rfl, chunksR, if_pos rfl, ih]
      cases rest with
      | nil => simp [tailPad]
      | cons c t => rw [tailPad_cons 0 (by simp), List.cons_append]
    · cases hr : rest with
      | nil =>
        subst hr
        simp [specSplit, chunksR, hb, tailPad, Option.some_inj, hb]
      | cons c t =>
        rw [← hr]
        have hrne : rest ≠ [] := by simp [hr]
        obtain ⟨q, qs, hq⟩ : ∃ q qs, chunksR rest = q :: qs := by
          cases hc : chunksR rest with
          | nil => exact absurd hc (chunksR_ne_nil hrne)
          | cons q qs => exact ⟨q, qs, rfl⟩
        rw [specSplit, if_neg hb, chunksR, if_neg hb, ih, hq, tailPad_cons b hrne]
        rfl

theorem filter_tailPad (buf : List Nat) :
    (tailPad buf).filter (fun c => !c.isEmpty) = [] := by
  unfold tailPad
  split <;> simp

theorem nullSplit_filter_eq_specSplit_filter (buf : List Nat) :
    (nullSplit buf).filter (fun c => !c.isEmpty) =
      (specSplit buf).filter (fun c => !c.isEmpty) := by
  rw [nullSplit_eq_chunksR, specSplit_eq, List.filter_append, filter_tailPad,
    List.append_nil]

theorem memchr_eq_none {n : Nat} : ∀ l : List Nat, memchr n l = none ↔ n ∉ l := by
  intro l
  induction l with
  | nil => simp [memchr]
  | cons b rest ih =>
    by_cases hb : b = n
    · simp [memchr, hb]
    · have hnb : (n = b) = False := eq_false fun h => hb h.symm
      simp [memchr, hb, ih, List.mem_cons, hnb]

theorem memchr_of_first {n : Nat} :
    ∀ (l : List Nat) (p : Nat) (hp : p < l.length),
      l.get ⟨p, hp⟩ = n → (∀ i (hi : i < l.length), i < p → l.get ⟨i, hi⟩ ≠ n) →
      memchr n l = some p := by
  intro l
  induction l with
  | nil => intro p hp; simp at hp
  | cons b rest ih =>
    intro p hp hget hfirst
    cases p with
    | zero =>
      simp only [List.get] at hget
      simp [memchr, hget]
    | succ q =>
      have hb : b ≠ n := by
        have := hfirst 0 (by simp) (Nat.succ_pos q)
        simpa using this
      have hq : q < rest.length := by
        simpa using hp
      have hget' : rest.get ⟨q, hq⟩ = n := by
        simpa using hget
      have hfirst' : ∀ i (hi : i < rest.length), i < q → rest.get ⟨i, hi⟩ ≠ n := by
        intro i hi hiq
        have := hfirst (i + 1) (by simpa using hi) (by omega)
        simpa using this
      rw [memchr, if_neg hb, ih q hq hget' hfirst']
      rfl

theorem nullSplit_no_nul {buf : List Nat} (hne : buf ≠ []) (h : 0 ∉ buf) :
    nullSplit buf = [buf] := by
  have hm : memchr 0 buf = none := (memchr_eq_none buf).mpr h
  have hnext : nullSplitNext buf = some (buf, []) := by
    simp [nullSplitNext, hm, hne]
  rw [nullSplit_of_next_some hnext, nullSplit_nil]

theorem nullSplit_append_nul {pre : List Nat} (h : 0 ∉ pre) :
    ∀ rest, nullSplit (pre ++ 0 :: rest) = pre :: nullSplit rest := by
  induction pre with
  | nil => intro rest; simpa using nullSplit_cons_zero rest
  | cons b pre' ih =>
    intro rest
    have hb : b ≠ 0 := fun hb => h (by simp [hb])
    have h' : 0 ∉ pre' := fun hx => h (by simp [hx])
    rw [List.cons_append, nullSplit_cons_of_ne b _ hb, ih h' rest]

/-- Split a record at the first `=` (byte 61), as done inline in `print_env`:
`(key, val)` with `val` the bytes after the `=`, or the whole record with an
empty value when no `=` is present. -/
def splitKV (chunk : List Nat) : List Nat × List Nat :=
  match memchr 61 chunk with
  | some pos => (chunk.take pos, chunk.drop (pos + 1))
  | none => (chunk, [])

/-- Compiled glob set; matching against the external `globset` crate is kept
abstract as the set's matcher function. -/
structure GlobSet where
  matcher : List Nat → Bool

/-- Compiled regex set; matching against the external `regex` crate is kept
abstract as the set's matcher function. -/
structure RegexSet where
  matcher : List Nat → Bool

/-- The three pattern variants of `enum Pattern`. -/
inductive Pattern where
  | Empty : Pattern
  | Glob : GlobSet → Pattern
  | Regex : RegexSet → Pattern

/-- Dispatch of `Pattern::is_match`. -/
def Pattern.is_match : Pattern → List Nat → Bool
  | .Empty, _ => true
  | .Glob globs, name => globs.matcher name
  | .Regex regexes, name => regexes.matcher name

/-- Pattern construction in `run`: no pattern arguments give `Pattern::Empty`;
otherwise the pattern list is compiled as a glob set or a regex set depending
on the glob flag (the external compilation steps are parameters). -/
def buildPattern (pats : Option (List String)) (glob : Bool)
    (compileGlob : List String → GlobSet) (compileRegex : List String → RegexSet) :
    Pattern :=
  match pats, glob with
  | none, _ => Pattern.Empty
  | some ps, true => Pattern.Glob (compileGlob ps)
  | some ps, false => Pattern.Regex (compileRegex ps)

/-- Byte sequences emitted for the three styles: each `Style::write_to` and
`write_reset_to` call writes the style's escape bytes (possibly none). -/
structure StyleCodes where
  keyOn : List Nat
  keyOff : List Nat
  equOn : List Nat
  equOff : List Nat
  valOn : List Nat
  valOff : List Nat

/-- Styling as it degrades on a non-terminal sink: every escape is empty. -/
def plainStyle : StyleCodes := ⟨[], [], [], [], [], []⟩

/-- The error an output sink reports, identified by the write call it rejected. -/
structure SinkError where
  callIdx : Nat

/-- An output sink: bytes successfully written so far, the number of write
calls that succeeded, and an optional index of the write call that will fail. -/
structure Sink where
  failAt : Option Nat
  calls : Nat
  out : List Nat

/-- One write call on the sink: fails (writing nothing) when this call's index
is the sink's failing one, otherwise appends the bytes. -/
def Sink.write (s : Sink) (data : List Nat) : Except (SinkError × Sink) Sink :=
  if s.failAt = some s.calls then
    Except.error (⟨s.calls⟩, s)
  else
    Except.ok ⟨s.failAt, s.calls + 1, s.out ++ data⟩

/-- The write sequence `print_env` performs for one matched field: styled key,
styled `=`, styled value only when non-empty, then a newline. Each `?` in the
source is an early return modelled by the `Except` bind. -/
def writeField (st : StyleCodes) (key val : List Nat) (s : Sink) :
    Except (SinkError × Sink) Sink := do
  let s ← s.write st.keyOn
  let s ← s.write key
  let s ← s.write st.keyOff
  let s ← s.write (st.equOn ++ [61] ++ st.equOff)
  let s ←
    if val.isEmpty then
      pure s
    else do
      let s ← s.write st.valOn
      let s ← s.write val
      s.write st.valOff
  s.write [10]

/-- The loop body of `print_env` over the chunks the `NullSplit` iterator
yields: skip empty chunks, decode, filter by the pattern, write. -/
def printEnvGo (pat : Pattern) (st : StyleCodes) :
    List (List Nat) → Sink → Except (SinkError × Sink) Sink
  | [], s => Except.ok s
  | chunk :: rest, s =>
    if chunk.isEmpty then
      printEnvGo pat st rest s
    else
      let kv := splitKV chunk
      if pat.is_match kv.1 then
        match writeField st kv.1 kv.2 s with
        | Except.error e => Except.error e
        | Except.ok s' => printEnvGo pat st rest s'
      else
        printEnvGo pat st rest s

/-- `print_env`: iterate `NullSplit(buf)` and print each matching field. -/
def printEnv (buf : List Nat) (pat : Pattern) (st : StyleCodes) (s : Sink) :
    Except (SinkError × Sink) Sink :=
  printEnvGo pat st (nullSplit buf) s

/-- The Fields the pipeline produces: every non-empty chunk, decoded. -/
def envFields (buf : List Nat) : List (List Nat × List Nat) :=
  ((nullSplit buf).filter (fun c => !c.isEmpty)).map splitKV

/-- The non-empty Records of the buffer, per the spec's notion of Record. -/
def specRecords (buf : List Nat) : List (List Nat) :=
  (specSplit buf).filter (fun c => !c.isEmpty)

/-- The payloads of the write calls `writeField` performs, in order. -/
def fieldWrites (st : StyleCodes) (key val : List Nat) : List (List Nat) :=
  [st.keyOn, key, st.keyOff, st.equOn ++ [61] ++ st.equOff] ++
    (if val.isEmpty then [] else [st.valOn, val, st.valOff]) ++ [[10]]

/-- The bytes `writeField` leaves on a sink that never fails. -/
def fieldBytes (st : StyleCodes) (key val : List Nat) : List Nat :=
  st.keyOn ++ key ++ st.keyOff ++ (st.equOn ++ [61] ++ st.equOff) ++
    (if val.isEmpty then [] else st.valOn ++ val ++ st.valOff) ++ [10]

/-- The payloads of every write call the whole pipeline performs, in order. -/
def pipeWrites (pat : Pattern) (st : StyleCodes) (chunks : List (List Nat)) :
    List (List Nat) :=
  (((chunks.filter (fun c => !c.isEmpty)).filter
      (fun c => pat.is_match (splitKV c).1)).map
    (fun c => fieldWrites st (splitKV c).1 (splitKV c).2)).flatten

/-- Run a list of write calls in order, stopping at the first failure. -/
def writeList : List (List Nat) → Sink → Except (SinkError × Sink) Sink
  | [], s => Except.ok s
  | d :: ds, s =>
    match s.write d with
    | Except.error e => Except.error e
    | Except.ok s' => writeList ds s'

theorem writeField_eq_writeList (st : StyleCodes) (key val : List Nat) (s : Sink) :
    writeField st key val s = writeList (fieldWrites st key val) s := by
  cases hv : val.isEmpty
  case false =>
    simp only [writeField, fieldWrites, hv, Bool.false_eq_true, if_false,
      List.cons_append, List.nil_append, List.append_nil, writeList, bind,
      Except.bind]
    cases s.write st.keyOn with
    | error e => rfl
    | ok s1 =>
    dsimp only
    cases s1.write key with
    | error e => rfl
    | ok s2 =>
    dsimp only
    cases s2.write st.keyOff with
    | error e => rfl
    | ok s3 =>
    dsimp only
    cases s3.write (st.equOn ++ [61] ++ st.equOff) with
    | error e => rfl
    | ok s4 =>
    dsimp only
    cases s4.write st.valOn with
    | error e => rfl
    | ok s5 =>
    dsimp only
    cases s5.write val with
    | error e => rfl
    | ok s6 =>
    dsimp only
    cases s6.write st.valOff with
    | error e => rfl
    | ok s7 =>
    dsimp only
    cases s7.write [10] with
    | error e => rfl
    | ok s8 => rfl
  case true =>
    simp only [writeField, fieldWrites, hv, if_true, List.cons_append,
      List.nil_append, List.append_nil, writeList, bind, Except.bind, pure,
      Except.pure]
    cases s.write st.keyOn with
    | error e => rfl
    | ok s1 =>
    dsimp only
    cases s1.write key with
    | error e => rfl
    | ok s2 =>
    dsimp only
    cases s2.write st.keyOff with
    | error e => rfl
    | ok s3 =>
    dsimp only
    cases s3.write (st.equOn ++ [61] ++ st.equOff) with
    | error e => rfl
    | ok s4 =>
    dsimp only
    cases s4.write [10] with
    | error e => rfl
    | ok s5 => rfl

theorem writeList_append (xs ys : List (List Nat)) (s : Sink) :
    writeList (xs ++ ys) s = Except.bind (writeList xs s) (writeList ys) := by
  induction xs generalizing s with
  | nil => rfl
  | cons d xs ih =>
    rw [List.cons_append, writeList, writeList]
    cases s.write d with
    | error e => rfl
    | ok s' =>
      dsimp only
      exact ih s'

theorem writeList_failAt_none (ds : List (List Nat)) :
    ∀ (c : Nat) (o : List Nat),
      writeList ds ⟨none, c, o⟩ = Except.ok ⟨none, c + ds.length, o ++ ds.flatten⟩ := by
  induction ds with
  | nil => intro c o; simp [writeList]
  | cons d ds ih =>
    intro c o
    have hw : Sink.write ⟨none, c, o⟩ d = Except.ok ⟨none, c + 1, o ++ d⟩ := by
      simp [Sink.write]
    rw [writeList, hw]
    dsimp only
    rw [ih (c + 1) (o ++ d)]
    simp only [List.length_cons, List.flatten_cons, List.append_assoc]
    congr 2
    omega

theorem writeList_failAt_some_ok (ds : List (List Nat)) :
    ∀ (n c : Nat) (o : List Nat), c + ds.length ≤ n →
      writeList ds ⟨some n, c, o⟩ =
        Except.ok ⟨some n, c + ds.length, o ++ ds.flatten⟩ := by
  induction ds with
  | nil => intro n c o _; simp [writeList]
  | cons d ds ih =>
    intro n c o hle
    have hcn : c ≠ n := by
      simp only [List.length_cons] at hle
      omega
    have hw : Sink.write ⟨some n, c, o⟩ d = Except.ok ⟨some n, c + 1, o ++ d⟩ := by
      simp only [Sink.write, Option.some_inj]
      rw [if_neg (by omega)]
    rw [writeList, hw]
    dsimp only
    rw [ih n (c + 1) (o ++ d) (by simp only [List.length_cons] at hle; omega)]
    simp only [List.length_cons, List.flatten_cons, List.append_assoc]
    congr 2
    omega

theorem writeList_failAt_some_error (ds : List (List Nat)) :
    ∀ (n c : Nat) (o : List Nat), c ≤ n → n < c + ds.length →
      writeList ds ⟨some n, c, o⟩ =
        Except.error (⟨n⟩, ⟨some n, n, o ++ (ds.take (n - c)).flatten⟩) := by
  induction ds with
  | nil =>
    intro n c o hcn hn
    simp only [List.length_nil, Nat.add_zero] at hn
    omega
  | cons d ds ih =>
    intro n c o hcn hn
    by_cases hc : c = n
    · subst hc
      have hw : Sink.write ⟨some c, c, o⟩ d = Except.error (⟨c⟩, ⟨some c, c, o⟩) := by
        simp [Sink.write]
      rw [writeList, hw]
      simp
    · have hclt : c < n := by omega
      have hw : Sink.write ⟨some n, c, o⟩ d = Except.ok ⟨some n, c + 1, o ++ d⟩ := by
        simp only [Sink.write, Option.some_inj]
        rw [if_neg (by omega)]
      rw [writeList, hw]
      dsimp only
      rw [ih n (c + 1) (o ++ d) (by omega) (by simp only [List.length_cons] at hn; omega)]
      have hk : n - c = (n - (c + 1)) + 1 := by omega
      rw [hk, List.take_succ_cons, List.flatten_cons, List.append_assoc]

theorem fieldWrites_flatten (st : StyleCodes) (key val : List Nat) :
    (fieldWrites st key val).flatten = fieldBytes st key val := by
  cases hv : val.isEmpty <;> simp [fieldWrites, fieldBytes, hv]

theorem printEnvGo_eq_writeList (pat : Pattern) (st : StyleCodes) :
    ∀ (chunks : List (List Nat)) (s : Sink),
      printEnvGo pat st chunks s = writeList (pipeWrites pat st chunks) s := by
  intro chunks
  induction chunks with
  | nil => intro s; rfl
  | cons chunk rest ih =>
    intro s
    cases hc : chunk.isEmpty
    · cases hm : pat.is_match (splitKV chunk).1
      · rw [printEnvGo]
        simp only [hc, Bool.false_eq_true, if_false, hm]
        rw [ih s]
        congr 1
        simp [pipeWrites, hc, hm]
      · rw [printEnvGo]
        simp only [hc, Bool.false_eq_true, if_false, hm, if_true]
        have hpw : pipeWrites pat st (chunk :: rest) =
            fieldWrites st (splitKV chunk).1 (splitKV chunk).2 ++
              pipeWrites pat st rest := by
          simp [pipeWrites, hc, hm]
        rw [hpw, writeList_append, writeField_eq_writeList]
        cases writeList (fieldWrites st (splitKV chunk).1 (splitKV chunk).2) s with
        | error e => rfl
        | ok s' =>
          dsimp only [Except.bind]
          exact ih s'
    · rw [printEnvGo]
      simp only [hc, if_true]
      rw [ih s]
      congr 1
      simp [pipeWrites, hc]

/-- Byte-lexicographic comparison of byte strings, `x <= y` as `Ord` on
`&[u8]` computes it. -/
def lexLe : List Nat → List Nat → Bool
  | [], _ => true
  | _ :: _, [] => false
  | a :: as, b :: bs => if a < b then true else if b < a then false else lexLe as bs

theorem lexLe_refl : ∀ l : List Nat, lexLe l l = true := by
  intro l
  induction l with
  | nil => rfl
  | cons a as ih => simp [lexLe, ih]

theorem lexLe_total : ∀ x y : List Nat, lexLe x y = true ∨ lexLe y x = true := by
  intro x
  induction x with
  | nil => intro y; left; rfl
  | cons a as ih =>
    intro y
    cases y with
    | nil => right; rfl
    | cons b bs =>
      rcases Nat.lt_trichotomy a b with h | h | h
      · left
        simp [lexLe, h]
      · subst h
        simpa [lexLe] using ih bs
      · right
        simp [lexLe, h]

theorem lexLe_trans :
    ∀ x y z : List Nat, lexLe x y = true → lexLe y z = true → lexLe x z = true := by
  intro x
  induction x with
  | nil => intro y z h1 h2; rfl
  | cons a as ih =>
    intro y z h1 h2
    cases y with
    | nil => simp [lexLe] at h1
    | cons b bs =>
      cases z with
      | nil => simp [lexLe] at h2
      | cons c cs =>
        simp only [lexLe] at h1 h2 ⊢
        split_ifs at h1 h2 ⊢ <;>
          first
          | rfl
          | omega
          | exact ih bs cs h1 h2

/-- Ordering of Fields by name, byte-lexicographic ascending. -/
def fieldLE (a b : List Nat × List Nat) : Prop := lexLe a.1 b.1 = true

instance : DecidableRel fieldLE :=
  fun a b => inferInstanceAs (Decidable (lexLe a.1 b.1 = true))

instance : IsTotal (List Nat × List Nat) fieldLE :=
  ⟨fun a b => lexLe_total a.1 b.1⟩

instance : IsTrans (List Nat × List Nat) fieldLE :=
  ⟨fun a b c => lexLe_trans a.1 b.1 c.1⟩

/-- Modelled from the spec: the sort step is absent from the source shown
(there is no `sort` flag in `Args` and no sorting in `print_env`), so the
configuration surface's `sort: bool` step — "collect all Fields into a
sequence and apply a stable sort by `name` (byte-lexicographic ascending)" —
is modelled as a stable sort (insertion sort) of the field sequence under
`fieldLE`. -/
def sortFields (fs : List (List Nat × List Nat)) : List (List Nat × List Nat) :=
  List.insertionSort fieldLE fs

theorem sortFields_sorted (fs : List (List Nat × List Nat)) :
    (sortFields fs).Pairwise fieldLE :=
  List.sorted_insertionSort fieldLE fs

theorem sortFields_stable (fs : List (List Nat × List Nat)) (name : List Nat) :
    (sortFields fs).filter (fun f => f.1 == name) =
      fs.filter (fun f => f.1 == name) := by
  have hmem : ∀ f ∈ fs.filter (fun f => f.1 == name), f.1 = name := by
    intro f hf
    have := List.of_mem_filter hf
    simpa [beq_iff_eq] using this
  have hr : (fs.filter (fun f => f.1 == name)).Pairwise fieldLE := by
    apply List.pairwise_of_forall_mem_list
    intro a ha b hb
    unfold fieldLE
    rw [hmem a ha, hmem b hb]
    exact lexLe_refl name
  have h1 : List.Sublist (fs.filter (fun f => f.1 == name)) (sortFields fs) :=
    List.sublist_insertionSort hr (List.filter_sublist fs)
  have h3 : List.Sublist (fs.filter (fun f => f.1 == name))
      ((sortFields fs).filter (fun f => f.1 == name)) := by
    have h4 := h1.filter (fun f => f.1 == name)
    rwa [List.filter_eq_self.mpr (fun f hf => by
      rw [beq_iff_eq]
      exact hmem f hf)] at h4
  have hlen : ((sortFields fs).filter (fun f => f.1 == name)).length =
      (fs.filter (fun f => f.1 == name)).length :=
    ((List.perm_insertionSort fieldLE fs).filter (fun f => f.1 == name)).length_eq
  exact (h3.eq_of_length hlen.symm).symm

theorem chunksR_length_le : ∀ buf : List Nat, (chunksR buf).length ≤ buf.length + 1 := by
  intro buf
  induction buf with
  | nil => simp [chunksR]
  | cons b rest ih =>
    rw [chunksR]
    by_cases hb : b = 0
    · rw [if_pos hb]
      simp only [List.length_cons]
      omega
    · rw [if_neg hb]
      cases hc : chunksR rest with
      | nil => simp
      | cons r rs =>
        rw [hc] at ih
        simp only [List.length_cons] at ih ⊢
        omega

theorem flatten_map_flatten {α : Type} (f : α → List (List Nat)) :
    ∀ l : List α,
      ((l.map f).flatten).flatten = (l.map fun a => (f a).flatten).flatten := by
  intro l
  induction l with
  | nil => rfl
  | cons a l ih =>
    simp only [List.map_cons, List.flatten_cons, List.flatten_append, ih]

theorem pipeWrites_empty_flatten (st : StyleCodes) (chunks : List (List Nat)) :
    (pipeWrites Pattern.Empty st chunks).flatten =
      (((chunks.filter (fun c => !c.isEmpty)).map splitKV).map
        (fun f => fieldBytes st f.1 f.2)).flatten := by
  unfold pipeWrites
  simp only [Pattern.is_match, List.filter_true, List.map_map]
  rw [flatten_map_flatten]
  congr 1
  apply List.map_congr_left
  intro c _
  exact fieldWrites_flatten st _ _

/-- C3: the Record Splitter yields zero elements on the empty buffer, and on
any non-empty buffer containing no NUL byte it yields exactly one element,
the whole buffer. -/
theorem claim_C3 :
    nullSplit [] = [] ∧
    ∀ buf : List Nat, buf ≠ [] → 0 ∉ buf → nullSplit buf = [buf] :=
  ⟨nullSplit_nil, fun _ hne hn => nullSplit_no_nul hne hn⟩

theorem claim_C3_witness :
    nullSplit [] = [] ∧ nullSplit [97, 98, 99] = [[97, 98, 99]] :=
  ⟨claim_C3.1, claim_C3.2 [97, 98, 99] (by decide) (by decide)⟩

/-- C4: the splitter's NUL handling is asymmetric: a leading NUL yields an
empty first element, two consecutive NULs yield an empty element between
them, but a single trailing NUL yields no trailing empty element; in
particular splitting `a=1\0` gives exactly the record `a=1`. -/
theorem claim_C4 :
    (∀ rest : List Nat, nullSplit (0 :: rest) = [] :: nullSplit rest) ∧
    (∀ pre post : List Nat, 0 ∉ pre →
      nullSplit (pre ++ 0 :: 0 :: post) = pre :: [] :: nullSplit post) ∧
    (∀ pre : List Nat, pre ≠ [] → 0 ∉ pre → nullSplit (pre ++ [0]) = [pre]) ∧
    nullSplit [97, 61, 49, 0] = [[97, 61, 49]] := by
  refine ⟨nullSplit_cons_zero, fun pre post h => ?_, fun pre _ h => ?_, ?_⟩
  · rw [nullSplit_append_nul h, nullSplit_cons_zero]
  · rw [nullSplit_append_nul h, nullSplit_nil]
  · rw [nullSplit_eq_chunksR]
    rfl

theorem claim_C4_witness :
    nullSplit (0 :: [97]) = [] :: nullSplit [97] ∧
    nullSplit ([97] ++ 0 :: 0 :: [98]) = [97] :: [] :: nullSplit [98] ∧
    nullSplit ([97] ++ [0]) = [[97]] ∧
    nullSplit [97, 61, 49, 0] = [[97, 61, 49]] :=
  ⟨claim_C4.1 [97], claim_C4.2.1 [97] [98] (by decide),
    claim_C4.2.2.1 [97] (by decide) (by decide), claim_C4.2.2.2⟩

/-- C5: the Record Decoder is total on records: when the first `=` (byte 61)
sits at position `p`, the field is the bytes before `p` and the bytes after
`p`; when the record has no `=`, the field is the whole record with an empty
value. -/
theorem claim_C5 :
    (∀ chunk : List Nat, chunk ≠ [] →
      ∀ (p : Nat) (hp : p < chunk.length), chunk.get ⟨p, hp⟩ = 61 →
        (∀ (i : Nat) (hi : i < chunk.length), i < p → chunk.get ⟨i, hi⟩ ≠ 61) →
        splitKV chunk = (chunk.take p, chunk.drop (p + 1))) ∧
    (∀ chunk : List Nat, chunk ≠ [] → 61 ∉ chunk → splitKV chunk = (chunk, [])) := by
  constructor
  · intro chunk _ p hp hget hfirst
    unfold splitKV
    rw [memchr_of_first chunk p hp hget hfirst]
  · intro chunk _ h
    unfold splitKV
    rw [(memchr_eq_none chunk).mpr h]

theorem claim_C5_witness :
    splitKV [97, 61, 98] = ([97], [98]) ∧
    splitKV [110, 111] = ([110, 111], []) :=
  ⟨claim_C5.1 [97, 61, 98] (by decide) 1 (by decide) (by decide)
      (by decide),
    claim_C5.2 [110, 111] (by decide) (by decide)⟩

/-- C6: building a Pattern from zero pattern strings gives the match-all
variant `Pattern::Empty`, whose `is_match` is true for every name, the empty
name included. -/
theorem claim_C6 :
    (∀ (glob : Bool) (cg : List String → GlobSet) (cr : List String → RegexSet),
      buildPattern none glob cg cr = Pattern.Empty) ∧
    (∀ name : List Nat, Pattern.Empty.is_match name = true) ∧
    Pattern.Empty.is_match [] = true :=
  ⟨fun _ _ _ => rfl, fun _ => rfl, rfl⟩

/-- C10: iterating the Record Splitter terminates: every successful `next`
strictly shrinks the remaining slice, a buffer of length `n` yields at most
`n + 1` chunks, and `next` returns `None` exactly on the empty remaining
slice, which it leaves empty, so every later call returns `None` as well. -/
theorem claim_C10 :
    (∀ s chunk s' : List Nat, nullSplitNext s = some (chunk, s') →
      s'.length < s.length) ∧
    (∀ buf : List Nat, (nullSplit buf).length ≤ buf.length + 1) ∧
    (∀ s : List Nat, nullSplitNext s = none → s = []) ∧
    nullSplitNext ([] : List Nat) = none := by
  refine ⟨fun s chunk s' h => nullSplitNext_some_length h, fun buf => ?_,
    fun s h => ?_, rfl⟩
  · rw [nullSplit_eq_chunksR]
    exact chunksR_length_le buf
  · by_cases hs : s.isEmpty
    · exact List.isEmpty_iff.mp hs
    · exfalso
      unfold nullSplitNext at h
      rw [if_neg hs] at h
      cases hm : memchr 0 s <;> rw [hm] at h <;> simp at h

theorem claim_C10_witness :
    ([98] : List Nat).length < ([97, 0, 98] : List Nat).length ∧
    (nullSplit [97, 0, 98]).length ≤ ([97, 0, 98] : List Nat).length + 1 ∧
    ([] : List Nat) = [] :=
  ⟨claim_C10.1 [97, 0, 98] [97] [98] (by decide), claim_C10.2.1 [97, 0, 98],
    claim_C10.2.2.1 [] rfl⟩

/-- C1: with the sort flag set, Fields are stably sorted by name
(byte-lexicographic ascending) before filtering and formatting: under any
pattern the surviving fields are in ascending name order, fields with equal
names keep their original relative order, and the spec's stability example
sorts as stated. The sort step itself is modelled from the spec, the flag
being absent from the source shown. -/
theorem claim_C1 :
    (∀ (buf : List Nat) (pat : Pattern),
      ((sortFields (envFields buf)).filter fun f => pat.is_match f.1).Pairwise
        fieldLE) ∧
    (∀ (buf : List Nat) (name : List Nat),
      (sortFields (envFields buf)).filter (fun f => f.1 == name) =
        (envFields buf).filter (fun f => f.1 == name)) ∧
    sortFields [([98], [49]), ([97], [50]), ([97], [51])] =
      [([97], [50]), ([97], [51]), ([98], [49])] := by
  refine ⟨fun buf pat => ?_, fun buf name => sortFields_stable _ name, ?_⟩
  · exact List.Pairwise.sublist (List.filter_sublist _) (sortFields_sorted _)
  · decide

/-- C2: the Fields the pipeline produces are exactly the non-empty Records of
the buffer in buffer order, decoded; empty Records are never formatted; under
the match-all pattern the output is the formatting of exactly these Fields,
and the buffer `\0\0a=b\0\0` yields the single Field `(a, b)`. -/
theorem claim_C2 :
    (∀ buf : List Nat, envFields buf = (specRecords buf).map splitKV) ∧
    envFields [0, 0, 97, 61, 98, 0, 0] = [([97], [98])] ∧
    (∀ (buf : List Nat) (st : StyleCodes), ∃ c : Nat,
      printEnv buf Pattern.Empty st ⟨none, 0, []⟩ =
        Except.ok ⟨none, c,
          ((envFields buf).map fun f => fieldBytes st f.1 f.2).flatten⟩) := by
  refine ⟨fun buf => ?_, ?_, fun buf st => ?_⟩
  · unfold envFields specRecords
    rw [nullSplit_filter_eq_specSplit_filter]
  · simp only [envFields, nullSplit_eq_chunksR]
    rfl
  · refine ⟨(pipeWrites Pattern.Empty st (nullSplit buf)).length, ?_⟩
    unfold printEnv
    rw [printEnvGo_eq_writeList, writeList_failAt_none]
    simp only [Nat.zero_add, List.nil_append]
    rw [pipeWrites_empty_flatten]
    rfl

/-- C7: for every Field the Formatter writes the name bytes framed by the key
style, then `=` framed by the `=` style, then — exactly when the value is
non-empty — the value bytes framed by the value style, then a newline; all
name and value bytes appear verbatim in the output. -/
theorem claim_C7 :
    ∀ (st : StyleCodes) (key val : List Nat) (s : Sink), s.failAt = none →
      writeField st key val s =
        Except.ok ⟨none, s.calls + (fieldWrites st key val).length,
          s.out ++ (st.keyOn ++ key ++ st.keyOff ++
            (st.equOn ++ [61] ++ st.equOff) ++
            (if val.isEmpty then [] else st.valOn ++ val ++ st.valOff) ++
            [10])⟩ := by
  intro st key val s h
  obtain ⟨f, c, o⟩ := s
  simp only at h
  subst h
  rw [writeField_eq_writeList, writeList_failAt_none, fieldWrites_flatten]
  rfl

theorem claim_C7_witness :
    writeField ⟨[1], [2], [3], [4], [5], [6]⟩ [75] [86] ⟨none, 0, []⟩ =
      Except.ok ⟨none, 8, [1, 75, 2, 3, 61, 4, 5, 86, 6, 10]⟩ := by
  have h := claim_C7 ⟨[1], [2], [3], [4], [5], [6]⟩ [75] [86] ⟨none, 0, []⟩ rfl
  simpa using h

/-- C8: when a write to the sink fails, the pipeline aborts at once and
propagates the sink's error: the bytes on the sink are exactly those of the
write calls before the failing one — a prefix of the full run's output — and
the returned error is the one the sink raised. -/
theorem claim_C8 :
    ∀ (buf : List Nat) (pat : Pattern) (st : StyleCodes) (n : Nat)
      (e : SinkError) (s' : Sink),
      printEnv buf pat st ⟨some n, 0, []⟩ = Except.error (e, s') →
      e = ⟨n⟩ ∧ s'.calls = n ∧
        s'.out = ((pipeWrites pat st (nullSplit buf)).take n).flatten ∧
        List.IsPrefix s'.out (pipeWrites pat st (nullSplit buf)).flatten := by
  intro buf pat st n e s' h
  unfold printEnv at h
  rw [printEnvGo_eq_writeList] at h
  by_cases hle : (pipeWrites pat st (nullSplit buf)).length ≤ n
  · rw [writeList_failAt_some_ok _ n 0 [] (by omega)] at h
    simp at h
  · rw [writeList_failAt_some_error _ n 0 [] (Nat.zero_le n) (by omega)] at h
    simp only [Except.error.injEq, Prod.mk.injEq] at h
    obtain ⟨he, hs⟩ := h
    subst hs
    refine ⟨he.symm, rfl, by simp, ?_⟩
    refine ⟨((pipeWrites pat st (nullSplit buf)).drop n).flatten, ?_⟩
    simp only [Nat.sub_zero, List.nil_append]
    rw [← List.flatten_append, List.take_append_drop]

theorem claim_C8_witness :
    (⟨2⟩ : SinkError) = ⟨2⟩ ∧ (⟨some 2, 2, [65]⟩ : Sink).calls = 2 ∧
    (⟨some 2, 2, [65]⟩ : Sink).out =
      ((pipeWrites Pattern.Empty plainStyle (nullSplit [65, 61, 49, 0])).take
        2).flatten ∧
    List.IsPrefix (⟨some 2, 2, [65]⟩ : Sink).out
      (pipeWrites Pattern.Empty plainStyle (nullSplit [65, 61, 49, 0])).flatten := by
  apply claim_C8 [65, 61, 49, 0] Pattern.Empty plainStyle 2 ⟨2⟩ ⟨some 2, 2, [65]⟩
  have hs : nullSplit [65, 61, 49, 0] = [[65, 61, 49]] := by
    rw [nullSplit_eq_chunksR]
    rfl
  show printEnvGo Pattern.Empty plainStyle (nullSplit [65, 61, 49, 0])
      ⟨some 2, 0, []⟩ = _
  rw [hs]
  rfl

/-- C9: a Record beginning with `=` decodes to an empty name with the rest as
the value; it is not discarded, and under the match-all pattern buffer
`=foo` is formatted (with plain styling) as the line `=foo`. -/
theorem claim_C9 :
    (∀ rest : List Nat, splitKV (61 :: rest) = ([], rest)) ∧
    envFields [61, 102, 111, 111] = [([], [102, 111, 111])] ∧
    (∃ c : Nat,
      printEnv [61, 102, 111, 111] Pattern.Empty plainStyle ⟨none, 0, []⟩ =
        Except.ok ⟨none, c, [61, 102, 111, 111, 10]⟩) := by
  refine ⟨fun rest => ?_, ?_, ⟨8, ?_⟩⟩
  · simp [splitKV, memchr]
  · simp only [envFields, nullSplit_eq_chunksR]
    rfl
  · have hs : nullSplit [61, 102, 111, 111] = [[61, 102, 111, 111]] := by
      rw [nullSplit_eq_chunksR]
      rfl
    show printEnvGo Pattern.Empty plainStyle (nullSplit [61, 102, 111, 111])
        ⟨none, 0, []⟩ = _
    rw [hs]
    rfl
